import Mathlib

/-!
Shallow embedding of the secret-detection engine's rule-evaluation core
(package `config`, file `rule.go`) and of the GitLab host orchestration
loops (package `hosts`), together with theorems settling the frozen
claims about them.

Modelling conventions:
* A compiled Go `*regexp.Regexp` is modelled abstractly by the interface
  the rule engine uses: `FindString`, `FindStringSubmatch` and `String()`
  (the pattern text).  Concrete instances used in witnesses are literal
  substring matchers, which behave exactly like a Go regexp whose pattern
  is a literal.
* Go `float64` arithmetic is modelled by real numbers `ℝ`; `fmt.Sprintf
  "%.2f"` is modelled by rounding the real value to two decimal places
  and rendering it in decimal.
* A nil regexp pointer is modelled by `Option`; fallible collaborator
  calls return `Option`/sum shapes.
-/

/-- Abstract model of the interface of a compiled Go regular expression as
used by `rule.go`: `String()` (the source pattern), `FindString` (leftmost
match, `""` when there is no match) and `FindStringSubmatch` (the group
list of the leftmost match, group 0 first; `[]` when there is no match). -/
structure Regexp where
  pattern : String
  findString : String → String
  findStringSubmatch : String → List String

/-- Helper for the literal-pattern regexp model: `true` iff `pat` occurs
as a contiguous subsequence of `s`. -/
def listContainsSeq (pat : List Char) : List Char → Bool
  | [] => pat.isEmpty
  | c :: t => pat.isPrefixOf (c :: t) || listContainsSeq pat t

/-- String-level substring occurrence test. -/
def strContains (s pat : String) : Bool :=
  listContainsSeq pat.data s.data

/-- Model of a compiled regexp whose pattern is the literal `pat`:
`FindString` returns the pattern whenever it occurs in the input, and the
submatch list is just the whole match (no capturing groups). -/
def litRegex (pat : String) : Regexp :=
  ⟨pat,
   fun s => if strContains s pat then pat else "",
   fun s => if strContains s pat then [pat] else []⟩

/-- Model of a compiled regexp whose pattern is the literal `pat` with one
capturing group that captures the literal `sub` whenever the whole pattern
matches. -/
def litRegexWithGroup (pat sub : String) : Regexp :=
  ⟨pat,
   fun s => if strContains s pat then pat else "",
   fun s => if strContains s pat then [pat, sub] else []⟩

/-- `regexMatched` from `rule.go`: a nil regexp never matches, otherwise
the input matches iff `FindString` returns a non-empty string. -/
def regexMatched (f : String) (re : Option Regexp) : Bool :=
  match re with
  | none => false
  | some re => if re.findString f ≠ "" then true else false

/-- `anyRegexMatch` from `rule.go`: true iff any regexp in the list
matches the input in the sense of `regexMatched`. -/
def anyRegexMatch (f : String) (res : List Regexp) : Bool :=
  res.any fun re => regexMatched f (some re)

/-- Modelled from the spec: the `AllowList` struct (its source file is not
under `src/`); per §3 it holds sets of regexes for content (`Regexes`),
filename (`Files`) and path (`Paths`) suppression. -/
structure AllowList where
  Regexes : List Regexp
  Files : List Regexp
  Paths : List Regexp

/-- Modelled from the spec: `AllowList.FileAllowed` (§4.4) — true iff the
name matches any configured file regex; a missing list matches nothing. -/
def AllowList.FileAllowed (a : AllowList) (name : String) : Bool :=
  anyRegexMatch name a.Files

/-- Modelled from the spec: `AllowList.PathAllowed` (§4.4) — true iff the
path matches any configured path regex. -/
def AllowList.PathAllowed (a : AllowList) (path : String) : Bool :=
  anyRegexMatch path a.Paths

/-- Modelled from the spec: the `Entropy` constraint struct (its source
file is not under `src/`); per §3 an entropy constraint is a triple
`(captureGroupIndex, minEntropy, maxEntropy)`.  The min/max bounds are
`float64` in Go, modelled as `ℝ`; the group index is modelled as `Nat`. -/
structure Entropy where
  Min : ℝ
  Max : ℝ
  Group : Nat

/-- The `Rule` struct from `rule.go`.  `Regex` is the content regex
(an empty pattern plays the role of "no content regex"), `File`/`Path`
are optional (nil-able) filename/path regexes. -/
structure Rule where
  Description : String
  Regex : Regexp
  File : Option Regexp
  Path : Option Regexp
  ReportGroup : Int
  Tags : List String
  AllowList : AllowList
  Entropies : List Entropy

/-- `shannonEntropy` from `rule.go`.  The Go code counts occurrences per
rune (`for _, char := range data` ranges over code points) but sets
`invLength := 1.0 / float64(len(data))`, where `len` of a Go string is its
UTF-8 *byte* length.  The Go map iteration order is irrelevant because the
terms are summed; we sum over the deduplicated code-point list. -/
noncomputable def shannonEntropy (data : String) : ℝ :=
  if data = "" then 0
  else
    (data.data.dedup.map fun c =>
      -(((data.data.count c : ℝ) * (1 / (data.utf8ByteSize : ℝ))) *
        Real.logb 2 ((data.data.count c : ℝ) * (1 / (data.utf8ByteSize : ℝ))))).sum

/-- Definition following the spec's words for claim C2 (to be compared
with `shannonEntropy`, which is translated from the source): the frequency
of each code point is its occurrence count divided by the number of code
points of the string, not the number of bytes of its encoding. -/
noncomputable def specShannonEntropy (data : String) : ℝ :=
  if data = "" then 0
  else
    (data.data.dedup.map fun c =>
      -(((data.data.count c : ℝ) * (1 / (data.data.length : ℝ))) *
        Real.logb 2 ((data.data.count c : ℝ) * (1 / (data.data.length : ℝ))))).sum

/-- Model of `fmt.Sprintf("%.2f", x)`: round the (real-modelled) value to
two decimal places and render it as a decimal numeral with exactly two
fractional digits. -/
noncomputable def format2 (x : ℝ) : String :=
  (if round (x * 100) < 0 then "-" else "") ++
    toString ((round (x * 100)).natAbs / 100) ++ "." ++
    (if (round (x * 100)).natAbs % 100 < 10 then "0" else "") ++
    toString ((round (x * 100)).natAbs % 100)

/-- Model of Go's `strings.Join`: concatenate the elements, placing `sep`
between consecutive elements. -/
def stringsJoin (elems : List String) (sep : String) : String :=
  match elems with
  | [] => ""
  | a :: rest => rest.foldl (fun acc s => acc ++ sep ++ s) a

/-- `Rule.RegexAllowed` from `rule.go`: the content is allowlisted iff it
matches any regex of the rule-local allowlist.  Note the argument is the
whole content handed in by `Inspect`, which passes the *line*. -/
def Rule.RegexAllowed (r : Rule) (content : String) : Bool :=
  anyRegexMatch content r.AllowList.Regexes

/-- `Rule.CheckEntropies` from `rule.go`: true iff some entropy constraint
whose group index is in bounds for `groups` is satisfied (inclusively) by
the Shannon entropy of that group. -/
noncomputable def Rule.CheckEntropies (r : Rule) (groups : List String) : Bool :=
  r.Entropies.any fun e =>
    if groups.length > e.Group then
      decide (shannonEntropy (groups.getD e.Group "") ≥ e.Min ∧
              shannonEntropy (groups.getD e.Group "") ≤ e.Max)
    else false

/-- `Rule.ComputeEntropy` from `rule.go`: the entropy of every group
(group 0 included), two-decimal formatted, joined by `", "`. -/
noncomputable def Rule.ComputeEntropy (_r : Rule) (groups : List String) : String :=
  stringsJoin (groups.map fun group => format2 (shannonEntropy group)) ", "

/-- `Rule.Inspect` from `rule.go`.  In order: find the leftmost match of
the content regex (no match → no finding); suppress if the rule-local
allowlist matches the line; re-run with capture groups; suppress when
entropy constraints exist and none is satisfied; compute the entropy
report; select the offender via `ReportGroup` when `0 < ReportGroup <
len(groups)`, otherwise keep the full match. -/
noncomputable def Rule.Inspect (r : Rule) (line : String) : String × String :=
  if r.Regex.findString line = "" then ("", "")
  else if r.RegexAllowed line then ("", "")
  else if 0 < r.Entropies.length ∧
      ¬ r.CheckEntropies (r.Regex.findStringSubmatch (r.Regex.findString line)) then
    ("", "")
  else
    ((if 0 < r.ReportGroup ∧
          r.ReportGroup < ((r.Regex.findStringSubmatch (r.Regex.findString line)).length : Int)
      then (r.Regex.findStringSubmatch (r.Regex.findString line)).getD r.ReportGroup.toNat ""
      else r.Regex.findString line),
     r.ComputeEntropy (r.Regex.findStringSubmatch (r.Regex.findString line)))

/-- Model of Go's `filepath.Base` on a Unix path: empty path gives `"."`,
trailing slashes are stripped, a path of only slashes gives `"/"`, and
otherwise the last path element is returned. -/
def filepathBase (path : String) : String :=
  if path = "" then "."
  else
    if (path.data.reverse.dropWhile fun c => c == '/') = [] then "/"
    else
      String.mk (((path.data.reverse.dropWhile fun c => c == '/').takeWhile
        fun c => !(c == '/')).reverse)

/-- `Rule.HasFileLeak` from `rule.go`. -/
def Rule.HasFileLeak (r : Rule) (fileName : String) : Bool :=
  regexMatched fileName r.File

/-- `Rule.HasFilePathLeak` from `rule.go`. -/
def Rule.HasFilePathLeak (r : Rule) (filePath : String) : Bool :=
  regexMatched filePath r.Path

/-- `Rule.HasFileOrPathLeakOnly` from `rule.go`: only applies to rules
with an empty content-regex pattern and no entropy constraints; the file
allowlist is consulted on the base name and the path allowlist on the full
path; otherwise the base name is matched against `File` and the full path
against `Path`. -/
def Rule.HasFileOrPathLeakOnly (r : Rule) (filePath : String) : Bool :=
  if r.Regex.pattern ≠ "" then false
  else if r.Entropies.length ≠ 0 then false
  else if r.AllowList.FileAllowed (filepathBase filePath) ||
      r.AllowList.PathAllowed filePath then false
  else r.HasFileLeak (filepathBase filePath) || r.HasFilePathLeak filePath

/-- A project ref as returned by the host listing collaborator
(`*gitlab.Project`): only the fields the listing loop reads. -/
structure Project where
  name : String
  forked : Bool

/-- The pagination fields of a `*gitlab.Response` read by `Gitlab.Scan`. -/
structure GitlabResponse where
  totalPages : Nat
  nextPage : Nat

/-- The repository-listing loop of `Gitlab.Scan` (hosts file, lines
53-92), fuel-indexed.  `fetch p` models one `ListUserProjects` /
`ListGroupProjects` call for the page number `p` carried in the request's
`ListOptions`; `none` models a nil response.  The first `Nat` argument
after the fuel models `listOpts.Page`, which the source initialises to 1
and never reassigns inside the loop; the second models the local `page`
variable, updated to `resp.NextPage` each iteration.  The loop breaks when
the response is nil or when `page >= resp.TotalPages`.  The result is
`some (requestCount, keptProjects)` when the loop terminates within the
given fuel, `none` otherwise. -/
def gitlabListLoop (excludeForks : Bool)
    (fetch : Nat → Option (List Project × GitlabResponse)) :
    Nat → Nat → Nat → Option (Nat × List Project)
  | 0, _, _ => none
  | fuel + 1, optsPage, page =>
    match fetch optsPage with
    | none => some (1, [])
    | some (ps, resp) =>
      if resp.totalPages ≤ page then
        some (1, ps.filter fun p => !(excludeForks && p.forked))
      else
        match gitlabListLoop excludeForks fetch fuel optsPage resp.nextPage with
        | none => none
        | some (k, rest) =>
          some (k + 1, (ps.filter fun p => !(excludeForks && p.forked)) ++ rest)

/-- Entry point of the listing loop as in the source: `page := 1` and
`listOpts.Page := 1`. -/
def gitlabScanListing (excludeForks : Bool)
    (fetch : Nat → Option (List Project × GitlabResponse)) (fuel : Nat) :
    Option (Nat × List Project) :=
  gitlabListLoop excludeForks fetch fuel 1 1

/-- One diff entry returned by `GetCommitDiff` (`d.Diff`, `d.NewPath`). -/
structure CommitDiff where
  diff : String
  newPath : String

/-- The pagination fields of the diff response read by `ScanCommitURL`. -/
structure GitlabDiffResponse where
  currentPage : Nat
  totalPages : Nat
  nextPage : Nat

/-- The diff-pagination loop of `Gitlab.ScanCommitURL` (hosts file, lines
146-168), fuel-indexed.  `fetch p` models one `GetCommitDiff` call for
page `p`; `none` models a call that returns a non-nil error, on which the
source logs and executes `continue` — re-entering the loop with
`diffPage` unchanged.  On success every diff of the page is processed
(`repo.CheckRules`), the loop breaks when `CurrentPage >= TotalPages` and
otherwise continues with `diffPage = resp.NextPage`.  The result is
`some processedDiffs` when the loop terminates within the fuel. -/
def gitlabDiffLoop (fetch : Nat → Option (List CommitDiff × GitlabDiffResponse)) :
    Nat → Nat → Option (List CommitDiff)
  | 0, _ => none
  | fuel + 1, diffPage =>
    match fetch diffPage with
    | none => gitlabDiffLoop fetch fuel diffPage
    | some (diffs, resp) =>
      if resp.totalPages ≤ resp.currentPage then some diffs
      else
        match gitlabDiffLoop fetch fuel resp.nextPage with
        | none => none
        | some rest => some (diffs ++ rest)

/-! ### Helper lemmas -/

theorem string_length_pos_of_ne_empty {s : String} (h : s ≠ "") : 0 < s.length := by
  cases s with
  | mk data =>
    cases data with
    | nil => exact absurd rfl h
    | cons c t => simp

theorem format2_ne_empty (x : ℝ) : format2 x ≠ "" := by
  intro h
  have hlen := congrArg String.length h
  have hdot : ("." : String).length = 1 := rfl
  simp only [format2, String.length_append, String.length_empty, hdot] at hlen
  omega

theorem foldl_join_length_le (sep : String) :
    ∀ (rest : List String) (acc : String),
      acc.length ≤ (rest.foldl (fun acc s => acc ++ sep ++ s) acc).length
  | [], _ => le_refl _
  | s :: t, acc => by
    have h1 : acc.length ≤ (acc ++ sep ++ s).length := by
      simp only [String.length_append]
      omega
    exact le_trans h1 (foldl_join_length_le sep t (acc ++ sep ++ s))

theorem stringsJoin_ne_empty (a : String) (rest : List String) (sep : String)
    (h : a ≠ "") : stringsJoin (a :: rest) sep ≠ "" := by
  intro hc
  have h1 : a.length ≤ (stringsJoin (a :: rest) sep).length :=
    foldl_join_length_le sep rest a
  rw [hc, String.length_empty] at h1
  exact absurd (Nat.lt_of_lt_of_le (string_length_pos_of_ne_empty h) h1)
    (lt_irrefl 0)

theorem regexMatched_iff (f : String) (re? : Option Regexp) :
    regexMatched f re? = true ↔ ∃ re, re? = some re ∧ re.findString f ≠ "" := by
  cases re? with
  | none => simp [regexMatched]
  | some re =>
    simp only [regexMatched, Option.some.injEq]
    by_cases h : re.findString f = ""
    · rw [if_neg (by simp [h])]
      simp only [Bool.false_eq_true, false_iff]
      rintro ⟨re', hre, hne⟩
      exact hne (hre ▸ h)
    · rw [if_pos h]
      simp only [true_iff]
      exact ⟨re, rfl, h⟩

theorem checkEntropies_eq_true_iff (r : Rule) (groups : List String) :
    r.CheckEntropies groups = true ↔
      ∃ e ∈ r.Entropies, e.Group < groups.length ∧
        e.Min ≤ shannonEntropy (groups.getD e.Group "") ∧
        shannonEntropy (groups.getD e.Group "") ≤ e.Max := by
  unfold Rule.CheckEntropies
  rw [List.any_eq_true]
  constructor
  · rintro ⟨e, he, hp⟩
    refine ⟨e, he, ?_⟩
    by_cases h : groups.length > e.Group
    · rw [if_pos h] at hp
      have hq := of_decide_eq_true hp
      exact ⟨h, hq.1, hq.2⟩
    · rw [if_neg h] at hp
      exact absurd hp (by simp)
  · rintro ⟨e, he, h1, h2, h3⟩
    refine ⟨e, he, ?_⟩
    rw [if_pos h1]
    exact decide_eq_true ⟨h2, h3⟩

theorem inspect_eq_empty_of_allowed (r : Rule) (line : String)
    (h : r.RegexAllowed line = true) : r.Inspect line = ("", "") := by
  unfold Rule.Inspect
  by_cases h0 : r.Regex.findString line = ""
  · rw [if_pos h0]
  · rw [if_neg h0, if_pos h]

theorem inspect_eq_empty_of_entropy (r : Rule) (line : String)
    (hne : r.Entropies ≠ [])
    (hc : r.CheckEntropies (r.Regex.findStringSubmatch (r.Regex.findString line)) = false) :
    r.Inspect line = ("", "") := by
  unfold Rule.Inspect
  by_cases h0 : r.Regex.findString line = ""
  · rw [if_pos h0]
  · rw [if_neg h0]
    by_cases h1 : r.RegexAllowed line = true
    · rw [if_pos h1]
    · rw [if_neg h1, if_pos ⟨List.length_pos.mpr hne, by simp [hc]⟩]

theorem inspect_eq_of_pass (r : Rule) (line : String)
    (h1 : r.Regex.findString line ≠ "")
    (h2 : r.RegexAllowed line = false)
    (h3 : r.Entropies = [] ∨
      r.CheckEntropies (r.Regex.findStringSubmatch (r.Regex.findString line)) = true) :
    r.Inspect line =
      ((if 0 < r.ReportGroup ∧
            r.ReportGroup <
              ((r.Regex.findStringSubmatch (r.Regex.findString line)).length : Int)
        then (r.Regex.findStringSubmatch (r.Regex.findString line)).getD r.ReportGroup.toNat ""
        else r.Regex.findString line),
       r.ComputeEntropy (r.Regex.findStringSubmatch (r.Regex.findString line))) := by
  have hcond : ¬ (0 < r.Entropies.length ∧
      ¬ r.CheckEntropies (r.Regex.findStringSubmatch (r.Regex.findString line)) = true) := by
    rcases h3 with h | h
    · simp [h]
    · simp [h]
  unfold Rule.Inspect
  rw [if_neg h1, if_neg (by simp [h2]), if_neg hcond]

theorem inspect_ne_empty_of_pass (r : Rule) (line : String)
    (h1 : r.Regex.findString line ≠ "")
    (h2 : r.RegexAllowed line = false)
    (h3 : r.Entropies = [] ∨
      r.CheckEntropies (r.Regex.findStringSubmatch (r.Regex.findString line)) = true) :
    r.Inspect line ≠ ("", "") := by
  rw [inspect_eq_of_pass r line h1 h2 h3]
  intro hcon
  cases hg : r.Regex.findStringSubmatch (r.Regex.findString line) with
  | nil =>
    rw [hg] at hcon
    have hfst := congrArg Prod.fst hcon
    simp only [List.length_nil, Nat.cast_zero] at hfst
    rw [if_neg (by omega)] at hfst
    exact h1 hfst
  | cons g rest =>
    rw [hg] at hcon
    have hsnd := congrArg Prod.snd hcon
    simp only [Rule.ComputeEntropy, List.map_cons] at hsnd
    exact stringsJoin_ne_empty _ _ _ (format2_ne_empty (shannonEntropy g)) hsnd

theorem sum_map_dedup_eq_sum_toFinset {α : Type} [DecidableEq α]
    (l : List α) (f : α → ℝ) :
    (l.dedup.map f).sum = l.toFinset.sum f := by
  rw [show l.toFinset = l.dedup.toFinset from
    List.toFinset.ext fun x => (List.mem_dedup).symm]
  exact (List.sum_toFinset f (List.nodup_dedup l)).symm

theorem logb_two_inv_two : Real.logb 2 ((2 : ℝ)⁻¹) = -1 := by
  rw [Real.logb_inv, Real.logb_self_eq_one one_lt_two]

theorem logb_two_half : Real.logb 2 ((1 : ℝ) / 2) = -1 := by
  rw [one_div]; exact logb_two_inv_two

/-! ### Claim C9 -/

/-- Claim C9 (confirmed): the entropy function satisfies the three anchor
values — entropy of the empty string is 0, entropy of "aaaa" is 0, and
entropy of "ab" is exactly 1. -/
theorem c9_entropy_anchors :
    shannonEntropy "" = 0 ∧ shannonEntropy "aaaa" = 0 ∧ shannonEntropy "ab" = 1 := by
  refine ⟨by rw [shannonEntropy, if_pos rfl], ?_, ?_⟩
  · rw [shannonEntropy, if_neg (by decide)]
    have hdata : ("aaaa" : String).data = ['a', 'a', 'a', 'a'] := rfl
    have hsize : ("aaaa" : String).utf8ByteSize = 4 := rfl
    rw [hdata, hsize]
    have hdedup : (['a', 'a', 'a', 'a'] : List Char).dedup = ['a'] := by decide
    rw [hdedup]
    have hcount : (['a', 'a', 'a', 'a'] : List Char).count 'a' = 4 := by decide
    simp only [List.map_cons, List.map_nil, List.sum_cons, List.sum_nil, hcount]
    norm_num
  · rw [shannonEntropy, if_neg (by decide)]
    have hdata : ("ab" : String).data = ['a', 'b'] := rfl
    have hsize : ("ab" : String).utf8ByteSize = 2 := rfl
    rw [hdata, hsize]
    have hdedup : (['a', 'b'] : List Char).dedup = ['a', 'b'] := by decide
    rw [hdedup]
    have hca : (['a', 'b'] : List Char).count 'a' = 1 := by decide
    have hcb : (['a', 'b'] : List Char).count 'b' = 1 := by decide
    simp only [List.map_cons, List.map_nil, List.sum_cons, List.sum_nil, hca, hcb]
    norm_num [logb_two_half, logb_two_inv_two]

/-! ### Claim C2 -/

/-- Claim C2 (corrected), counterexample: on the one-code-point, two-byte
string "é" the source's `shannonEntropy` yields 1/2, because the frequency
denominator `len(data)` is the UTF-8 byte length (2), while the claim's
formula with the code-point count (1) as denominator — `specShannonEntropy`
— yields 0. -/
theorem c2_counterexample :
    shannonEntropy "é" = 1 / 2 ∧ specShannonEntropy "é" = 0 ∧
      shannonEntropy "é" ≠ specShannonEntropy "é" := by
  have h1 : shannonEntropy "é" = 1 / 2 := by
    rw [shannonEntropy, if_neg (by decide)]
    have hdata : ("é" : String).data = ['é'] := rfl
    have hsize : ("é" : String).utf8ByteSize = 2 := rfl
    rw [hdata, hsize]
    have hdedup : (['é'] : List Char).dedup = ['é'] := by decide
    rw [hdedup]
    have hc : (['é'] : List Char).count 'é' = 1 := by decide
    simp only [List.map_cons, List.map_nil, List.sum_cons, List.sum_nil, hc]
    norm_num [logb_two_half, logb_two_inv_two]
  have h2 : specShannonEntropy "é" = 0 := by
    rw [specShannonEntropy, if_neg (by decide)]
    have hdata : ("é" : String).data = ['é'] := rfl
    rw [hdata]
    have hdedup : (['é'] : List Char).dedup = ['é'] := by decide
    rw [hdedup]
    have hc : (['é'] : List Char).count 'é' = 1 := by decide
    simp only [List.map_cons, List.map_nil, List.sum_cons, List.sum_nil, hc,
      List.length_cons, List.length_nil]
    norm_num
  exact ⟨h1, h2, by rw [h1, h2]; norm_num⟩

/-- Claim C2 (amended): `shannonEntropy` returns 0 on the empty string and
otherwise sums `-p_c * log2 p_c` over the distinct code points `c`, where
`p_c` is the occurrence count of `c` divided by the number of BYTES of the
UTF-8 encoding of the input (not the number of code points; the two agree
exactly on ASCII-only strings). -/
theorem c2_shannon_entropy_formula (s : String) :
    shannonEntropy s =
      if s = "" then 0
      else s.data.toFinset.sum fun c =>
        -(((s.data.count c : ℝ) / (s.utf8ByteSize : ℝ)) *
          Real.logb 2 ((s.data.count c : ℝ) / (s.utf8ByteSize : ℝ))) := by
  by_cases h : s = ""
  · rw [shannonEntropy, if_pos h, if_pos h]
  · rw [shannonEntropy, if_neg h, if_neg h]
    simp only [mul_one_div]
    exact sum_map_dedup_eq_sum_toFinset s.data _

/-! ### Claim C1 -/

/-- Concrete rule for claim C1: content regex (literal) "abc", one
rule-local allowlist regex (literal) "xyz", no entropy constraints. -/
def ruleC1 : Rule :=
  ⟨"c1", litRegex "abc", none, none, 0, [], ⟨[litRegex "xyz"], [], []⟩, []⟩

/-- Claim C1 (corrected), counterexample: on the line "abcxyz" the content
regex of `ruleC1` finds the substring "abc"; the allowlist regex "xyz"
does not match that matched substring; yet `Inspect` returns no finding —
the source passes the whole line to `RegexAllowed`, so an allowlist regex
matching a different part of the line does suppress the finding,
contradicting the claim. -/
theorem c1_counterexample :
    ruleC1.Regex.findString "abcxyz" = "abc" ∧
    anyRegexMatch "abc" ruleC1.AllowList.Regexes = false ∧
    ruleC1.Inspect "abcxyz" = ("", "") := by
  refine ⟨by decide, by decide, ?_⟩
  exact inspect_eq_empty_of_allowed ruleC1 "abcxyz" (by decide)

/-- Claim C1 (amended): the rule-local allowlist (regex scope) suppression
in `Inspect` is decided by the whole line, not by the matched substring:
whenever the content regex finds a match, an allowlist regex matching the
line suppresses the finding, and for a rule without entropy constraints
`Inspect` returns no finding exactly when some allowlist regex matches the
line. -/
theorem c1_allowlist_line_scope (r : Rule) (line : String)
    (hm : r.Regex.findString line ≠ "") :
    (anyRegexMatch line r.AllowList.Regexes = true → r.Inspect line = ("", "")) ∧
    (r.Entropies = [] →
      (r.Inspect line = ("", "") ↔ anyRegexMatch line r.AllowList.Regexes = true)) := by
  constructor
  · intro h
    exact inspect_eq_empty_of_allowed r line h
  · intro hent
    constructor
    · intro hins
      by_contra hal
      have h2 : r.RegexAllowed line = false := Bool.eq_false_iff.mpr hal
      exact inspect_ne_empty_of_pass r line hm h2 (Or.inl hent) hins
    · intro hal
      exact inspect_eq_empty_of_allowed r line hal

/-- Witness for `c1_allowlist_line_scope` at `ruleC1` and line "zzabczz"
(the allowlist regex "xyz" does not occur, so the finding survives). -/
theorem c1_allowlist_line_scope_witness :
    ruleC1.Regex.findString "zzabczz" ≠ "" ∧
    ((anyRegexMatch "zzabczz" ruleC1.AllowList.Regexes = true →
        ruleC1.Inspect "zzabczz" = ("", "")) ∧
     (ruleC1.Entropies = [] →
        (ruleC1.Inspect "zzabczz" = ("", "") ↔
          anyRegexMatch "zzabczz" ruleC1.AllowList.Regexes = true))) := by
  have hm : ruleC1.Regex.findString "zzabczz" ≠ "" := by decide
  exact ⟨hm, c1_allowlist_line_scope ruleC1 "zzabczz" hm⟩

/-! ### Claim C3 -/

/-- Claim C3 (confirmed): for a rule with a non-empty entropy-constraint
list, on a line where the content regex matches and the rule-local
allowlist does not suppress, `Inspect` produces a finding (a result other
than the no-finding pair `("", "")`) iff at least one constraint's
referenced capture group has entropy within that constraint's `[Min, Max]`
range inclusive; and when every in-bounds constraint's group entropy is
strictly outside its range, `Inspect` returns an empty offender even
though the content regex matched. -/
theorem c3_entropy_disjunctive (r : Rule) (line : String)
    (hne : r.Entropies ≠ [])
    (hm : r.Regex.findString line ≠ "")
    (ha : r.RegexAllowed line = false) :
    (r.Inspect line ≠ ("", "") ↔
      ∃ e ∈ r.Entropies,
        e.Group < (r.Regex.findStringSubmatch (r.Regex.findString line)).length ∧
        e.Min ≤ shannonEntropy
          ((r.Regex.findStringSubmatch (r.Regex.findString line)).getD e.Group "") ∧
        shannonEntropy
          ((r.Regex.findStringSubmatch (r.Regex.findString line)).getD e.Group "") ≤
          e.Max) ∧
    ((∀ e ∈ r.Entropies,
        e.Group < (r.Regex.findStringSubmatch (r.Regex.findString line)).length →
          (shannonEntropy
              ((r.Regex.findStringSubmatch (r.Regex.findString line)).getD e.Group "") <
              e.Min ∨
           e.Max < shannonEntropy
              ((r.Regex.findStringSubmatch (r.Regex.findString line)).getD e.Group ""))) →
      (r.Inspect line).fst = "") := by
  constructor
  · constructor
    · intro hfind
      by_contra hnex
      have hcf : r.CheckEntropies (r.Regex.findStringSubmatch (r.Regex.findString line)) =
          false := by
        rw [← Bool.not_eq_true, checkEntropies_eq_true_iff]
        exact hnex
      exact hfind (inspect_eq_empty_of_entropy r line hne hcf)
    · intro hex
      exact inspect_ne_empty_of_pass r line hm ha
        (Or.inr ((checkEntropies_eq_true_iff r _).mpr hex))
  · intro hall
    have hcf : r.CheckEntropies (r.Regex.findStringSubmatch (r.Regex.findString line)) =
        false := by
      rw [← Bool.not_eq_true, checkEntropies_eq_true_iff]
      rintro ⟨e, he, hlt, hmin, hmax⟩
      rcases hall e he hlt with h | h
      · exact absurd hmin (not_le.mpr h)
      · exact absurd hmax (not_le.mpr h)
    rw [inspect_eq_empty_of_entropy r line hne hcf]

/-- Concrete rule for claim C3's witness: literal content regex "abc", no
allowlist, a single entropy constraint `[0, 8]` on group 0. -/
def ruleC3 : Rule :=
  ⟨"c3", litRegex "abc", none, none, 0, [], ⟨[], [], []⟩, [⟨0, 8, 0⟩]⟩

/-- Witness for `c3_entropy_disjunctive` at `ruleC3` and line "zabc". -/
theorem c3_entropy_disjunctive_witness :
    (ruleC3.Entropies ≠ [] ∧ ruleC3.Regex.findString "zabc" ≠ "" ∧
      ruleC3.RegexAllowed "zabc" = false) ∧
    ((ruleC3.Inspect "zabc" ≠ ("", "") ↔
      ∃ e ∈ ruleC3.Entropies,
        e.Group < (ruleC3.Regex.findStringSubmatch (ruleC3.Regex.findString "zabc")).length ∧
        e.Min ≤ shannonEntropy
          ((ruleC3.Regex.findStringSubmatch (ruleC3.Regex.findString "zabc")).getD e.Group "") ∧
        shannonEntropy
          ((ruleC3.Regex.findStringSubmatch (ruleC3.Regex.findString "zabc")).getD e.Group "") ≤
          e.Max) ∧
    ((∀ e ∈ ruleC3.Entropies,
        e.Group < (ruleC3.Regex.findStringSubmatch (ruleC3.Regex.findString "zabc")).length →
          (shannonEntropy
              ((ruleC3.Regex.findStringSubmatch (ruleC3.Regex.findString "zabc")).getD
                e.Group "") < e.Min ∨
           e.Max < shannonEntropy
              ((ruleC3.Regex.findStringSubmatch (ruleC3.Regex.findString "zabc")).getD
                e.Group ""))) →
      (ruleC3.Inspect "zabc").fst = "")) := by
  have hne : ruleC3.Entropies ≠ [] := by simp [ruleC3]
  have hm : ruleC3.Regex.findString "zabc" ≠ "" := by decide
  have ha : ruleC3.RegexAllowed "zabc" = false := by decide
  exact ⟨⟨hne, hm, ha⟩, c3_entropy_disjunctive ruleC3 "zabc" hne hm ha⟩

/-! ### Claim C10 -/

/-- Claim C10 (confirmed): a constraint whose capture-group index is out
of range for the match's group list is skipped behind the bounds guard
(`len(groups) > e.Group`) — the embedding is total, so no out-of-bounds
access occurs — and a skipped constraint counts as unsatisfied; hence if
every constraint's group index is at least the number of capture groups,
`CheckEntropies` is false and `Inspect` returns no finding even though the
content regex matched and no allowlist suppression applied. -/
theorem c10_out_of_range_groups (r : Rule) (line : String)
    (hne : r.Entropies ≠ [])
    (_hm : r.Regex.findString line ≠ "")
    (_ha : r.RegexAllowed line = false)
    (hoor : ∀ e ∈ r.Entropies,
      (r.Regex.findStringSubmatch (r.Regex.findString line)).length ≤ e.Group) :
    r.CheckEntropies (r.Regex.findStringSubmatch (r.Regex.findString line)) = false ∧
    r.Inspect line = ("", "") := by
  have hcf : r.CheckEntropies (r.Regex.findStringSubmatch (r.Regex.findString line)) =
      false := by
    rw [← Bool.not_eq_true, checkEntropies_eq_true_iff]
    rintro ⟨e, he, hlt, -⟩
    exact absurd hlt (not_lt.mpr (hoor e he))
  exact ⟨hcf, inspect_eq_empty_of_entropy r line hne hcf⟩

/-- Concrete rule for claim C10's witness: literal content regex "abc"
(one group in the submatch list) and a single entropy constraint on the
out-of-range group index 5. -/
def ruleC10 : Rule :=
  ⟨"c10", litRegex "abc", none, none, 0, [], ⟨[], [], []⟩, [⟨0, 8, 5⟩]⟩

/-- Witness for `c10_out_of_range_groups` at `ruleC10` and line "abc". -/
theorem c10_out_of_range_groups_witness :
    (ruleC10.Entropies ≠ [] ∧ ruleC10.Regex.findString "abc" ≠ "" ∧
      ruleC10.RegexAllowed "abc" = false ∧
      (∀ e ∈ ruleC10.Entropies,
        (ruleC10.Regex.findStringSubmatch (ruleC10.Regex.findString "abc")).length ≤
          e.Group)) ∧
    (ruleC10.CheckEntropies
        (ruleC10.Regex.findStringSubmatch (ruleC10.Regex.findString "abc")) = false ∧
      ruleC10.Inspect "abc" = ("", "")) := by
  have hne : ruleC10.Entropies ≠ [] := by simp [ruleC10]
  have hm : ruleC10.Regex.findString "abc" ≠ "" := by decide
  have ha : ruleC10.RegexAllowed "abc" = false := by decide
  have hoor : ∀ e ∈ ruleC10.Entropies,
      (ruleC10.Regex.findStringSubmatch (ruleC10.Regex.findString "abc")).length ≤
        e.Group := by
    intro e he
    rw [show ruleC10.Entropies = [⟨0, 8, 5⟩] from rfl, List.mem_singleton] at he
    subst he
    decide
  exact ⟨⟨hne, hm, ha, hoor⟩, c10_out_of_range_groups ruleC10 "abc" hne hm ha hoor⟩

/-! ### Claim C4 -/

/-- Claim C4 (confirmed): on a matching line that survives allowlist and
entropy suppression, the returned offender is `groups[ReportGroup]` when
`0 < ReportGroup < len(groups)`, and otherwise — `ReportGroup` zero,
negative, or at least `len(groups)`, including a regex with no capturing
groups — the full regex match (group 0, under the engine-consistency
hypothesis `h0` that group 0 of the submatch list is the found match).
The embedding is a total function guarded by the same bound check as the
source, so no out-of-range `ReportGroup` can cause an error. -/
theorem c4_report_group (r : Rule) (line : String)
    (hm : r.Regex.findString line ≠ "")
    (ha : r.RegexAllowed line = false)
    (hpass : r.Entropies = [] ∨
      r.CheckEntropies (r.Regex.findStringSubmatch (r.Regex.findString line)) = true)
    (h0 : (r.Regex.findStringSubmatch (r.Regex.findString line)).head? =
      some (r.Regex.findString line)) :
    (r.Inspect line).fst =
      (if 0 < r.ReportGroup ∧
          r.ReportGroup <
            ((r.Regex.findStringSubmatch (r.Regex.findString line)).length : Int)
       then (r.Regex.findStringSubmatch (r.Regex.findString line)).getD
         r.ReportGroup.toNat ""
       else (r.Regex.findStringSubmatch (r.Regex.findString line)).headD "") := by
  rw [inspect_eq_of_pass r line hm ha hpass]
  cases hgl : r.Regex.findStringSubmatch (r.Regex.findString line) with
  | nil =>
    rw [hgl] at h0
    exact absurd h0 (by simp)
  | cons g t =>
    rw [hgl] at h0
    simp only [List.head?_cons, Option.some.injEq] at h0
    simp only [List.headD_cons, ← h0]

/-- Concrete rule for claim C4's witness: literal content regex
"key = sec" with one capturing group capturing "sec"; `ReportGroup = 1`
selects the captured group. -/
def ruleC4 : Rule :=
  ⟨"c4", litRegexWithGroup "key = sec" "sec", none, none, 1, [], ⟨[], [], []⟩, []⟩

/-- Witness for `c4_report_group` at `ruleC4` and line "x key = sec y". -/
theorem c4_report_group_witness :
    (ruleC4.Regex.findString "x key = sec y" ≠ "" ∧
      ruleC4.RegexAllowed "x key = sec y" = false ∧
      (ruleC4.Entropies = [] ∨
        ruleC4.CheckEntropies
          (ruleC4.Regex.findStringSubmatch (ruleC4.Regex.findString "x key = sec y")) =
          true) ∧
      (ruleC4.Regex.findStringSubmatch (ruleC4.Regex.findString "x key = sec y")).head? =
        some (ruleC4.Regex.findString "x key = sec y")) ∧
    (ruleC4.Inspect "x key = sec y").fst =
      (if 0 < ruleC4.ReportGroup ∧
          ruleC4.ReportGroup <
            ((ruleC4.Regex.findStringSubmatch
              (ruleC4.Regex.findString "x key = sec y")).length : Int)
       then (ruleC4.Regex.findStringSubmatch
         (ruleC4.Regex.findString "x key = sec y")).getD ruleC4.ReportGroup.toNat ""
       else (ruleC4.Regex.findStringSubmatch
         (ruleC4.Regex.findString "x key = sec y")).headD "") := by
  have hm : ruleC4.Regex.findString "x key = sec y" ≠ "" := by decide
  have ha : ruleC4.RegexAllowed "x key = sec y" = false := by decide
  have hpass : ruleC4.Entropies = [] ∨
      ruleC4.CheckEntropies
        (ruleC4.Regex.findStringSubmatch (ruleC4.Regex.findString "x key = sec y")) =
        true := Or.inl rfl
  have h0 : (ruleC4.Regex.findStringSubmatch
      (ruleC4.Regex.findString "x key = sec y")).head? =
      some (ruleC4.Regex.findString "x key = sec y") := by decide
  exact ⟨⟨hm, ha, hpass, h0⟩, c4_report_group ruleC4 "x key = sec y" hm ha hpass h0⟩

/-! ### Claim C8 -/

/-- Claim C8 (confirmed): whenever `Inspect` produces a finding (a result
other than the no-finding pair), the returned entropy report is the
two-decimal-formatted entropy of every capture group, group 0 through
group n in ascending order, joined by `", "` — whether or not the rule has
entropy constraints configured (the statement quantifies over every rule). -/
theorem c8_entropy_report (r : Rule) (line : String)
    (h : r.Inspect line ≠ ("", "")) :
    (r.Inspect line).snd =
      stringsJoin ((r.Regex.findStringSubmatch (r.Regex.findString line)).map
        fun g => format2 (shannonEntropy g)) ", " := by
  by_cases h1 : r.Regex.findString line = ""
  · exact absurd (by unfold Rule.Inspect; rw [if_pos h1]) h
  by_cases h2 : r.RegexAllowed line = true
  · exact absurd (inspect_eq_empty_of_allowed r line h2) h
  have h2f : r.RegexAllowed line = false := Bool.eq_false_iff.mpr h2
  by_cases h3 : r.Entropies = []
  · rw [inspect_eq_of_pass r line h1 h2f (Or.inl h3)]
    rfl
  · by_cases h4 : r.CheckEntropies
        (r.Regex.findStringSubmatch (r.Regex.findString line)) = true
    · rw [inspect_eq_of_pass r line h1 h2f (Or.inr h4)]
      rfl
    · have h4f : r.CheckEntropies
          (r.Regex.findStringSubmatch (r.Regex.findString line)) = false :=
        Bool.eq_false_iff.mpr h4
      exact absurd (inspect_eq_empty_of_entropy r line h3 h4f) h

/-- Concrete rule for claim C8's witness: literal content regex "tok", no
entropy constraints (the report is still produced). -/
def ruleC8 : Rule :=
  ⟨"c8", litRegex "tok", none, none, 0, [], ⟨[], [], []⟩, []⟩

/-- Witness for `c8_entropy_report` at `ruleC8` and line "a tok b". -/
theorem c8_entropy_report_witness :
    ruleC8.Inspect "a tok b" ≠ ("", "") ∧
    (ruleC8.Inspect "a tok b").snd =
      stringsJoin ((ruleC8.Regex.findStringSubmatch
        (ruleC8.Regex.findString "a tok b")).map
        fun g => format2 (shannonEntropy g)) ", " := by
  have h : ruleC8.Inspect "a tok b" ≠ ("", "") :=
    inspect_ne_empty_of_pass ruleC8 "a tok b" (by decide) (by decide) (Or.inl rfl)
  exact ⟨h, c8_entropy_report ruleC8 "a tok b" h⟩

/-! ### Claim C5 -/

/-- Claim C5 (confirmed): `HasFileOrPathLeakOnly` returns false when the
content-regex pattern is non-empty or entropy constraints exist, and false
when the base name is file-allowlisted or the full path is
path-allowlisted; otherwise it returns true iff the base filename matches
the rule's file regex or the full path matches its path regex, where an
unset (`none`) file or path regex never matches. -/
theorem c5_hasFileOrPathLeakOnly (r : Rule) (p : String) :
    r.HasFileOrPathLeakOnly p = true ↔
      (r.Regex.pattern = "" ∧ r.Entropies = [] ∧
       r.AllowList.FileAllowed (filepathBase p) = false ∧
       r.AllowList.PathAllowed p = false ∧
       ((∃ re, r.File = some re ∧ re.findString (filepathBase p) ≠ "") ∨
        (∃ re, r.Path = some re ∧ re.findString p ≠ ""))) := by
  unfold Rule.HasFileOrPathLeakOnly
  split_ifs with h1 h2 h3
  · simp only [Bool.false_eq_true, false_iff]
    rintro ⟨hp, -⟩
    exact h1 hp
  · simp only [Bool.false_eq_true, false_iff]
    rintro ⟨-, hent, -⟩
    exact h2 (by rw [hent]; rfl)
  · simp only [Bool.false_eq_true, false_iff]
    rintro ⟨-, -, hf, hp, -⟩
    rcases Bool.or_eq_true_iff.mp h3 with h | h
    · rw [hf] at h
      exact Bool.false_ne_true h
    · rw [hp] at h
      exact Bool.false_ne_true h
  · have hpat : r.Regex.pattern = "" := not_not.mp h1
    have hent : r.Entropies = [] := List.length_eq_zero.mp (not_not.mp h2)
    have hfp : r.AllowList.FileAllowed (filepathBase p) = false ∧
        r.AllowList.PathAllowed p = false := by
      have := Bool.eq_false_iff.mpr h3
      exact Bool.or_eq_false_iff.mp this
    unfold Rule.HasFileLeak Rule.HasFilePathLeak
    rw [Bool.or_eq_true_iff, regexMatched_iff, regexMatched_iff]
    constructor
    · intro h
      exact ⟨hpat, hent, hfp.1, hfp.2, h⟩
    · rintro ⟨-, -, -, -, h⟩
      exact h

/-! ### Claim C6 -/

/-- The page-keyed listing collaborator of claim C6's scenario: for a
request of page `p` the host reports 4 total pages and next page `p + 1`
(so it signals more pages for pages 1 through 3 and no more on page 4). -/
def fetchC6 : Nat → Option (List Project × GitlabResponse) :=
  fun p => some ([], ⟨4, if p < 4 then p + 1 else 0⟩)

/-- Claim C6 (code bug): against the four-page collaborator `fetchC6` the
listing loop of `Gitlab.Scan` never terminates — for every fuel bound the
loop is still running — because `listOpts.Page` is initialised to 1 and
never reassigned, so every request is for page 1, whose response reports
`NextPage = 2` and `TotalPages = 4`; the local `page` variable is stuck at
2 < 4 and the break condition never fires.  In particular the loop does
not issue exactly 4 page requests and stop, and it has no "page index did
not advance" stop condition. -/
theorem c6_listing_loop_diverges :
    ∀ fuel : Nat, gitlabScanListing false fetchC6 fuel = none := by
  have hf : fetchC6 1 = some ([], ⟨4, 2⟩) := rfl
  have hstuck : ∀ fuel : Nat, gitlabListLoop false fetchC6 fuel 1 2 = none := by
    intro fuel
    induction fuel with
    | zero => rfl
    | succ n ih => simp [gitlabListLoop, hf, ih]
  intro fuel
  cases fuel with
  | zero => rfl
  | succ n =>
    unfold gitlabScanListing
    simp [gitlabListLoop, hf, hstuck n]

/-! ### Claim C7 -/

/-- The page-keyed diff collaborator of claim C7's scenario: a three-page
commit diff whose page-2 fetch always fails (returns an error), while
pages 1 and 3 succeed. -/
def fetchC7 : Nat → Option (List CommitDiff × GitlabDiffResponse) :=
  fun p => if p = 2 then none else some ([⟨"diffhunk", "file.txt"⟩], ⟨p, 3, p + 1⟩)

/-- Claim C7 (code bug): against `fetchC7` the diff loop of
`Gitlab.ScanCommitURL` never terminates — the error branch executes
`continue` without advancing `diffPage`, so the failed page 2 is retried
forever instead of being skipped; page 3 is never scanned and the loop
never completes, for any fuel bound. -/
theorem c7_diff_loop_retries_forever :
    ∀ fuel : Nat, gitlabDiffLoop fetchC7 fuel 1 = none := by
  have hf2 : fetchC7 2 = none := rfl
  have hf1 : fetchC7 1 = some ([⟨"diffhunk", "file.txt"⟩], ⟨1, 3, 2⟩) := rfl
  have hstuck : ∀ fuel : Nat, gitlabDiffLoop fetchC7 fuel 2 = none := by
    intro fuel
    induction fuel with
    | zero => rfl
    | succ n ih => simp [gitlabDiffLoop, hf2, ih]
  intro fuel
  cases fuel with
  | zero => rfl
  | succ n =>
    simp [gitlabDiffLoop, hf1, hstuck n]
